import Mathlib

/-!
# Verification of `semantic-version-parser` (`src/lib.rs`)

Shallow embedding of the Rust library `semantic-version-parser` and proofs
about it.  Strings are modelled as `List Char`; fallible Rust code returns
`Option`; a Rust `panic!`-style abort (index out of bounds, `unwrap` on
`Err`, byte slicing off a char boundary) is modelled as `none` / the
`PResult.crash` outcome.  Machine integers (`u32`, `i32`) are modelled as
`Nat`/`Int` with explicit range checks and `% 2 ^ 32` where the source
performs machine arithmetic.  Unicode-dependent primitives
(`char::is_numeric`, `str::to_lowercase`) are modelled on the ASCII
fragment, which is the fragment every vocabulary word, digit and delimiter
of the source lives in.
-/

/-- The set of decimal-digit characters (code points 48–57), modelling
`char::is_numeric` on the ASCII fragment (`src/lib.rs:284`). -/
def isNum (c : Char) : Bool := 48 ≤ c.toNat && c.toNat ≤ 57

/-- Character value of a decimal digit, as in `c as u32 - '0' as u32`. -/
def charVal (c : Char) : Nat := c.toNat - 48

/-- Decimal digit to character, the characters `u32` formatting emits. -/
def digitChar (d : Nat) : Char :=
  if d = 0 then '0' else if d = 1 then '1' else if d = 2 then '2'
  else if d = 3 then '3' else if d = 4 then '4' else if d = 5 then '5'
  else if d = 6 then '6' else if d = 7 then '7' else if d = 8 then '8'
  else '9'

/-- Fuel-driven decimal rendering loop (most significant digit first),
modelling `u32::to_string`.  Structural recursion on the fuel keeps the
definition kernel-reducible. -/
def natToDigitsAux : Nat → Nat → List Char → List Char
  | 0, _, acc => acc
  | fuel + 1, n, acc =>
    if n < 10 then digitChar n :: acc
    else natToDigitsAux fuel (n / 10) (digitChar (n % 10) :: acc)

/-- Decimal representation of `n`, modelling `u32::to_string`
(`src/lib.rs:107`, `src/lib.rs:137`). -/
def natToDigits (n : Nat) : List Char := natToDigitsAux (n + 1) n []

/-- Number of characters in the decimal representation of `n`
(`value.to_string().chars().count()`, `src/lib.rs:107`). -/
def natLen (n : Nat) : Nat := (natToDigits n).length

/-- Value denoted by a most-significant-first digit string. -/
def digitsVal (s : List Char) : Nat := s.foldl (fun a c => a * 10 + charVal c) 0

/-- ASCII lowercasing of one character (code points 65–90 shift by 32),
modelling `str::to_lowercase` (`src/lib.rs:208`) on the ASCII fragment. -/
def lowerChar (c : Char) : Char :=
  if 65 ≤ c.toNat ∧ c.toNat ≤ 90 then Char.ofNat (c.toNat + 32) else c

/-- Lowercase a token (`t.to_lowercase()`, `src/lib.rs:208`). -/
def lowerTok (s : List Char) : List Char := s.map lowerChar

/-- The three delimiter characters of `s.split(&['-', '_', '.'])`
(`src/lib.rs:206`). -/
def isDelim (c : Char) : Bool := c = '-' || c = '_' || c = '.'

/-- Rust `str::split` on the delimiter set: the list of between-delimiter
chunks.  Like Rust, the result is never empty and empty chunks are kept
(`"".split(..)` yields `[""]`). -/
def splitDelims : List Char → List (List Char)
  | [] => [[]]
  | c :: rest =>
    if isDelim c then [] :: splitDelims rest
    else
      match splitDelims rest with
      | [] => [[c]]
      | t :: ts => (c :: t) :: ts

/-- Char index of the first numeric character of a chunk
(`s.chars().position(|c| c.is_numeric())`, `src/lib.rs:284`). -/
def numPos : List Char → Option Nat
  | [] => none
  | c :: t => if isNum c then some 0 else (numPos t).map fun p => p + 1

/-- Split a char list at a BYTE offset, as Rust slicing `&s[0..n]` /
`&s[n..]` does.  Returns `none` when the byte offset does not fall on a
character boundary — in Rust that slicing panics (`src/lib.rs:287`). -/
def sliceBytes : Nat → List Char → Option (List Char × List Char)
  | 0, l => some ([], l)
  | _ + 1, [] => none
  | n + 1, c :: rest =>
    if c.utf8Size ≤ n + 1 then
      match sliceBytes (n + 1 - c.utf8Size) rest with
      | some (a, b) => some (c :: a, b)
      | none => none
    else none

/-- `split_alpha_and_number` (`src/lib.rs:283`): find the char index of the
first numeric character and, if positive, slice the chunk at that index —
but as a byte offset, which panics (`none`) off a char boundary. -/
def splitAlphaNum (s : List Char) : Option (List (List Char)) :=
  match numPos s with
  | some p =>
    if p > 0 then
      match sliceBytes p s with
      | some (a, b) => some [a, b]
      | none => none
    else some [s]
  | none => some [s]

/-- Effectful map over a list, propagating the first `none` (a panic inside
the iterator chain aborts the whole `collect_vec`). -/
def mapOption (f : α → Option β) : List α → Option (List β)
  | [] => some []
  | a :: l =>
    match f a, mapOption f l with
    | some b, some bs => some (b :: bs)
    | _, _ => none

/-- The tokenizer of `SemVer::from_str` (`src/lib.rs:205-209`): split on the
delimiters, re-split each chunk at its first digit, lowercase every token. -/
def tokenize (s : List Char) : Option (List (List Char)) :=
  match mapOption splitAlphaNum (splitDelims s) with
  | some ls => some (ls.flatten.map lowerTok)
  | none => none

/-- Unsigned decimal body shared by the integer parsers: one or more ASCII
digits whose value is at most `bound`. -/
def parseMag (bound : Nat) (t : List Char) : Option Nat :=
  if t.isEmpty then none
  else if t.all isNum then
    if digitsVal t ≤ bound then some (digitsVal t) else none
  else none

/-- Rust `u32::from_str`: optional leading `+`, one or more ASCII digits,
value below `2 ^ 32`; anything else is `Err` (`src/lib.rs:116`). -/
def parseU32 (s : List Char) : Option Nat :=
  parseMag (2 ^ 32 - 1) (if s.headD ' ' = '+' then s.tail else s)

/-- Rust `i32::from_str`: optional sign, one or more ASCII digits, value in
the `i32` range (`src/lib.rs:253`). -/
def parseI32 (s : List Char) : Option Int :=
  if s.headD ' ' = '+' then (parseMag (2 ^ 31 - 1) s.tail).map fun m => (m : Int)
  else if s.headD ' ' = '-' then
    (parseMag (2 ^ 31) s.tail).map fun m => -(m : Int)
  else (parseMag (2 ^ 31 - 1) s).map fun m => (m : Int)

/-- Month vocabulary of `chrono::Month`: full name and month number; the
recognized abbreviation is the first three letters of the full name. -/
def monthNames : List (List Char × Nat) :=
  [("january".toList, 1), ("february".toList, 2), ("march".toList, 3),
   ("april".toList, 4), ("may".toList, 5), ("june".toList, 6),
   ("july".toList, 7), ("august".toList, 8), ("september".toList, 9),
   ("october".toList, 10), ("november".toList, 11), ("december".toList, 12)]

/-- `str::parse::<Month>` (`src/lib.rs:222`): a case-insensitive full month
name or three-letter abbreviation, mapped to its 1-based month number. -/
def parseMonth (s : List Char) : Option Nat :=
  (monthNames.find? fun q => lowerTok s == q.1 || lowerTok s == q.1.take 3).map
    fun q => q.2

/-- `ZeroPaddedInt` (`src/lib.rs:91`): a `u32` value together with the
character width of its textual origin. -/
structure ZeroPaddedInt where
  value : Nat
  width : Nat
deriving DecidableEq, Repr

/-- `FromStr for ZeroPaddedInt` (`src/lib.rs:112`): parse as `u32`,
remember the char count of the token as the width. -/
def ZeroPaddedInt.fromStr (s : List Char) : Option ZeroPaddedInt :=
  (parseU32 s).map fun v => ⟨v, s.length⟩

/-- `From<u32> for ZeroPaddedInt` (`src/lib.rs:103`): the width is the
natural decimal digit count of the value. -/
def ZeroPaddedInt.fromU32 (n : Nat) : ZeroPaddedInt := ⟨n, natLen n⟩

/-- `Add<u32> for ZeroPaddedInt` (`src/lib.rs:124`): `u32` addition (release
semantics wrap modulo `2 ^ 32`), width unchanged. -/
def ZeroPaddedInt.add (z : ZeroPaddedInt) (rhs : Nat) : ZeroPaddedInt :=
  ⟨(z.value + rhs) % 2 ^ 32, z.width⟩

/-- `Display for ZeroPaddedInt` (`src/lib.rs:135`): `{:0width$}` pads the
decimal representation with leading zeros up to `width`, never truncating. -/
def renderZP (z : ZeroPaddedInt) : List Char :=
  List.replicate (z.width - natLen z.value) '0' ++ natToDigits z.value

/-- `SemVerPrefix` (`src/lib.rs:63`): the single recognized leading marker. -/
inductive SemVerPre where
  | v
deriving DecidableEq, Repr

/-- Case-insensitive match of a token against the leading-marker vocabulary
(`strum` `ascii_case_insensitive`, `src/lib.rs:62`). -/
def SemVerPre.fromStr (s : List Char) : Option SemVerPre :=
  if lowerTok s = "v".toList then some SemVerPre.v else none

/-- Canonical text of the leading marker (`serialize_all = "lowercase"`). -/
def SemVerPre.canonical : SemVerPre → List Char
  | SemVerPre.v => "v".toList

/-- `SemVerSuffix` (`src/lib.rs:69`): the closed suffix vocabulary. -/
inductive SemVerSuffix where
  | dev
  | patch
  | p
  | alpha
  | a
  | beta
  | b
  | rc
deriving DecidableEq, Repr

/-- Canonical output text of a suffix marker: all lowercase except `RC`
(`src/lib.rs:68`, `src/lib.rs:78`). -/
def SemVerSuffix.canonical : SemVerSuffix → List Char
  | SemVerSuffix.dev => "dev".toList
  | SemVerSuffix.patch => "patch".toList
  | SemVerSuffix.p => "p".toList
  | SemVerSuffix.alpha => "alpha".toList
  | SemVerSuffix.a => "a".toList
  | SemVerSuffix.beta => "beta".toList
  | SemVerSuffix.b => "b".toList
  | SemVerSuffix.rc => "RC".toList

/-- Case-insensitive match of a token against the suffix vocabulary
(`strum` `ascii_case_insensitive`, `src/lib.rs:68`). -/
def SemVerSuffix.fromStr (s : List Char) : Option SemVerSuffix :=
  let t := lowerTok s
  if t = "dev".toList then some SemVerSuffix.dev
  else if t = "patch".toList then some SemVerSuffix.patch
  else if t = "p".toList then some SemVerSuffix.p
  else if t = "alpha".toList then some SemVerSuffix.alpha
  else if t = "a".toList then some SemVerSuffix.a
  else if t = "beta".toList then some SemVerSuffix.beta
  else if t = "b".toList then some SemVerSuffix.b
  else if t = "rc".toList then some SemVerSuffix.rc
  else none

/-- `SemVerPair` (`src/lib.rs:85`): suffix marker plus optional number. -/
structure SemVerPair where
  suffix : SemVerSuffix
  version : Option Int
deriving DecidableEq, Repr

/-- `SemVer` (`src/lib.rs:142`).  The source field `prefix` is called `pre`
here. -/
structure SemVer where
  pre : Option SemVerPre
  major : ZeroPaddedInt
  minor : ZeroPaddedInt
  patch : ZeroPaddedInt
  suffix : Option SemVerPair
deriving DecidableEq, Repr

/-- `SemVer::increment_major` (`src/lib.rs:151`). -/
def SemVer.increment_major (v : SemVer) : SemVer := { v with major := v.major.add 1 }

/-- `SemVer::increment_minor` (`src/lib.rs:158`). -/
def SemVer.increment_minor (v : SemVer) : SemVer := { v with minor := v.minor.add 1 }

/-- `SemVer::increment_patch` (`src/lib.rs:165`). -/
def SemVer.increment_patch (v : SemVer) : SemVer := { v with patch := v.patch.add 1 }

/-- `i32::to_string` used for the suffix number (`src/lib.rs:191`). -/
def intToStr (n : Int) : List Char :=
  if n < 0 then '-' :: natToDigits n.natAbs else natToDigits n.natAbs

/-- Rendered suffix segment `-{suffix}{version}` (`src/lib.rs:184-193`):
marker canonical text immediately followed by the optional number. -/
def renderSuffix (sp : SemVerPair) : List Char :=
  '-' :: (sp.suffix.canonical ++
    match sp.version with
    | some n => intToStr n
    | none => [])

/-- `Display for SemVer` (`src/lib.rs:173`):
`{prefix}{major}.{minor}.{patch}{-suffix}` with zero-padded numerals. -/
def SemVer.render (v : SemVer) : List Char :=
  (match v.pre with
   | some q => q.canonical
   | none => []) ++
  renderZP v.major ++ '.' :: renderZP v.minor ++ '.' :: renderZP v.patch ++
  (match v.suffix with
   | some sp => renderSuffix sp
   | none => [])

/-- Outcome of `SemVer::from_str`: success, the `ParseSemVerError` result,
or a process abort (Rust panic). -/
inductive PResult where
  | ok (v : SemVer)
  | err
  | crash
deriving DecidableEq, Repr

/-- Stage 1 of the classifier (`src/lib.rs:215-220`): match the first token
against the leading-marker vocabulary; drop it on a match or when it is the
literal `release`. -/
def stageRelease (parts : List (List Char)) : Option SemVerPre × List (List Char) :=
  let p0 := parts.headD []
  let pr := SemVerPre.fromStr p0
  if pr.isSome || p0 = "release".toList then (pr, parts.tail) else (pr, parts)

/-- Stage 2 (`src/lib.rs:222-224`): read `parts[1]` — a panic (`none`) when
fewer than two tokens remain — and replace it by its month number when it is
a month name. -/
def stageMonth (parts : List (List Char)) : Option (List (List Char)) :=
  match parts.get? 1 with
  | none => none
  | some t1 =>
    some
      (match parseMonth t1 with
       | some m => parts.set 1 (natToDigits m)
       | none => parts)

/-- Stage 3 (`src/lib.rs:226-234`): fewer than two tokens is a parse error
(`none`); exactly two tokens get a synthetic `"0"` patch token. -/
def stageArity (parts : List (List Char)) : Option (List (List Char)) :=
  if parts.length ≤ 1 then none
  else if parts.length = 2 then some (parts ++ ["0".toList])
  else some parts

/-- Stage 4 (`src/lib.rs:237-248`): with at least four tokens, match
`parts[3]` against the suffix vocabulary and remove it on a match; otherwise
remove it when it is the literal `v`. -/
def stageSuffix (parts : List (List Char)) :
    Option SemVerSuffix × List (List Char) :=
  if 4 ≤ parts.length then
    match SemVerSuffix.fromStr (parts.getD 3 []) with
    | some sp => (some sp, parts.eraseIdx 3)
    | none =>
      if parts.getD 3 [] = "v".toList then (none, parts.eraseIdx 3)
      else (none, parts)
  else (none, parts)

/-- Stage 5 (`src/lib.rs:251-260`): with still at least four tokens, parse
`parts[3]` as `i32` — `unwrap`, so failure is a panic (`none`) — remove it,
and default the suffix marker to `P` when none was matched. -/
def stageSuffixVersion (sp : Option SemVerSuffix) (parts : List (List Char)) :
    Option (Option SemVerSuffix × Option Int × List (List Char)) :=
  if 4 ≤ parts.length then
    match parseI32 (parts.getD 3 []) with
    | none => none
    | some n =>
      some (if sp.isNone then some SemVerSuffix.p else sp, some n,
        parts.eraseIdx 3)
  else some (sp, none, parts)

/-- Stage 6 (`src/lib.rs:266-271`): parse the first three tokens as
`ZeroPaddedInt`, `unwrap`ing — failure is a panic (`none`), as is having
fewer than three tokens. -/
def stageTriple (parts : List (List Char)) :
    Option (ZeroPaddedInt × ZeroPaddedInt × ZeroPaddedInt) :=
  match parts with
  | t0 :: t1 :: t2 :: _ =>
    match ZeroPaddedInt.fromStr t0, ZeroPaddedInt.fromStr t1,
        ZeroPaddedInt.fromStr t2 with
    | some x, some y, some z => some (x, y, z)
    | _, _, _ => none
  | _ => none

/-- `SemVer::from_str` (`src/lib.rs:204-280`), assembled from the stages in
source order. -/
def SemVer.fromStr (s : List Char) : PResult :=
  match tokenize s with
  | none => PResult.crash
  | some parts0 =>
    if parts0.isEmpty then PResult.err
    else
      match stageRelease parts0 with
      | (pr, parts1) =>
        match stageMonth parts1 with
        | none => PResult.crash
        | some parts2 =>
          match stageArity parts2 with
          | none => PResult.err
          | some parts3 =>
            match stageSuffix parts3 with
            | (sp, parts4) =>
              match stageSuffixVersion sp parts4 with
              | none => PResult.crash
              | some (sp2, sv, parts5) =>
                match stageTriple parts5 with
                | none => PResult.crash
                | some (x, y, z) =>
                  PResult.ok ⟨pr, x, y, z, sp2.map fun u => ⟨u, sv⟩⟩

/-- Longest leading run of digits of a string and the remaining characters,
used to model greedy `\d+` matching in the checker regex. -/
def spanDigits : List Char → List Char × List Char
  | [] => ([], [])
  | c :: r =>
    if isNum c then
      match spanDigits r with
      | (d, rest) => (c :: d, rest)
    else ([], c :: r)

/-- Alternatives of the suffix group of the `ComposerChecker` regex
(`dev|d|patch|p|alpha|a|beta|b|RC`, `src/lib.rs:52`), in source order. -/
def suffixVocab : List (List Char) :=
  ["dev".toList, "d".toList, "patch".toList, "p".toList, "alpha".toList,
   "a".toList, "beta".toList, "b".toList, "RC".toList]

/-- Match of `(dev|d|patch|p|alpha|a|beta|b|RC)(\d+)?$` against the rest of
the string after the `-`: some vocabulary word is a leading part and the
remainder is all digits (possibly empty). -/
def matchSuffixTail (s : List Char) : Bool :=
  suffixVocab.any fun w =>
    s.take w.length = w && (s.drop w.length).all isNum

/-- `ComposerChecker::is_valid` (`src/lib.rs:56`): the fixed regex
`^v?\d+\.\d+\.\d+(-(dev|d|patch|p|alpha|a|beta|b|RC)\d*)?$` (with the
optional digits group), decided directly. -/
def ComposerChecker.is_valid (s : List Char) : Bool :=
  let s1 := match s with
    | 'v' :: r => r
    | _ => s
  match spanDigits s1 with
  | ([], _) => false
  | (_ :: _, r1) =>
    match r1 with
    | '.' :: r2 =>
      match spanDigits r2 with
      | ([], _) => false
      | (_ :: _, r3) =>
        match r3 with
        | '.' :: r4 =>
          match spanDigits r4 with
          | ([], _) => false
          | (_ :: _, r5) =>
            match r5 with
            | [] => true
            | '-' :: r6 => matchSuffixTail r6
            | _ => false
        | _ => false
    | _ => false

/-- Data-model invariant of a parse-reachable `ZeroPaddedInt`: positive
width at least the digit count, and a `u32` value. -/
def GoodZP (z : ZeroPaddedInt) : Prop :=
  1 ≤ z.width ∧ natLen z.value ≤ z.width ∧ z.value < 2 ^ 32

/-- Invariant of every successfully parsed `SemVer`: the three numeric
fields are good and a present suffix number is a non-negative `i32`. -/
def SemVerInv (v : SemVer) : Prop :=
  GoodZP v.major ∧ GoodZP v.minor ∧ GoodZP v.patch ∧
    ∀ u : SemVerPair, v.suffix = some u →
      ∀ n : Int, u.version = some n → 0 ≤ n ∧ n < 2 ^ 31

/-- Token sequence the tokenizer produces from a rendered `SemVer` (a proof
artifact used to state the round-trip argument, derived from `render` and
`tokenize`, not a source function). -/
def expectedParts (v : SemVer) : List (List Char) :=
  (match v.pre with
   | some _ => ["v".toList]
   | none => []) ++
  [renderZP v.major, renderZP v.minor, renderZP v.patch] ++
  (match v.suffix with
   | none => []
   | some sp =>
     lowerTok sp.suffix.canonical ::
       (match sp.version with
        | some n => [natToDigits n.toNat]
        | none => []))

/-! ## Character and digit basics -/

theorem isNum_iff {c : Char} : isNum c = true ↔ 48 ≤ c.toNat ∧ c.toNat ≤ 57 := by
  simp [isNum]

theorem charVal_le_nine {c : Char} (h : isNum c = true) : charVal c ≤ 9 := by
  have := isNum_iff.mp h
  unfold charVal
  omega

theorem isNum_digitChar (d : Nat) : isNum (digitChar d) = true := by
  unfold digitChar
  split_ifs <;> decide

theorem charVal_digitChar {d : Nat} (h : d < 10) : charVal (digitChar d) = d := by
  interval_cases d <;> decide

theorem num_ne_plus {c : Char} (h : isNum c = true) : ¬c = '+' := by
  have := isNum_iff.mp h
  intro he
  subst he
  exact absurd this (by decide)

theorem num_ne_minus {c : Char} (h : isNum c = true) : ¬c = '-' := by
  have := isNum_iff.mp h
  intro he
  subst he
  exact absurd this (by decide)

theorem utf8Size_eq_one {c : Char} (h : c.toNat ≤ 122) : c.utf8Size = 1 := by
  unfold Char.utf8Size
  have h1 : c.val ≤ UInt32.ofNatCore 0x7F (by decide) := by
    rw [UInt32.le_def, BitVec.le_def]
    exact le_trans h (by decide)
  rw [if_pos h1]

theorem utf8Size_of_num {c : Char} (h : isNum c = true) : c.utf8Size = 1 :=
  utf8Size_eq_one (by have := isNum_iff.mp h; omega)

theorem toNat_ofNat_valid {n : Nat} (h : n < 55296) : (Char.ofNat n).toNat = n := by
  have hv : n.isValidChar := Or.inl h
  rw [Char.ofNat, dif_pos hv]
  simp [Char.ofNatAux, Char.toNat, UInt32.toNat]

theorem lowerChar_of_num {c : Char} (h : isNum c = true) : lowerChar c = c := by
  have hb := isNum_iff.mp h
  unfold lowerChar
  rw [if_neg (by omega)]

theorem isDelim_iff {c : Char} :
    isDelim c = true ↔ c = '-' ∨ c = '_' ∨ c = '.' := by
  simp [isDelim, or_assoc]

theorem isDelim_lowerChar {c : Char} (h : isDelim (lowerChar c) = true) :
    isDelim c = true := by
  unfold lowerChar at h
  split_ifs at h with hc
  · exfalso
    have ht : (Char.ofNat (c.toNat + 32)).toNat = c.toNat + 32 :=
      toNat_ofNat_valid (by omega)
    have d1 : ('-').toNat = 45 := rfl
    have d2 : ('_').toNat = 95 := rfl
    have d3 : ('.').toNat = 46 := rfl
    rcases isDelim_iff.mp h with h2 | h2 | h2 <;> rw [h2] at ht <;> omega
  · exact h

theorem lowerTok_all_num {l : List Char} (h : l.all isNum = true) :
    lowerTok l = l := by
  induction l with
  | nil => rfl
  | cons c t ih =>
    simp only [List.all_cons, Bool.and_eq_true] at h
    simp only [lowerTok, List.map_cons]
    rw [lowerChar_of_num h.1]
    exact congrArg _ (ih h.2)

/-! ## Decimal rendering (`natToDigits`) -/

theorem natToDigits_small {n : Nat} (h : n < 10) : natToDigits n = [digitChar n] := by
  simp [natToDigits, natToDigitsAux, h]

theorem natToDigitsAux_extra : ∀ n f1 f2 acc, n < f1 → n < f2 →
    natToDigitsAux f1 n acc = natToDigitsAux f2 n acc := by
  intro n
  induction n using Nat.strong_induction_on with
  | _ n ih =>
    intro f1 f2 acc h1 h2
    obtain ⟨g1, rfl⟩ : ∃ g, f1 = g + 1 := ⟨f1 - 1, by omega⟩
    obtain ⟨g2, rfl⟩ : ∃ g, f2 = g + 1 := ⟨f2 - 1, by omega⟩
    by_cases h10 : n < 10
    · simp [natToDigitsAux, h10]
    · simp only [natToDigitsAux, h10, if_false]
      exact ih (n / 10) (Nat.div_lt_self (by omega) (by omega)) g1 g2 _
        (by omega) (by omega)

theorem natToDigitsAux_acc : ∀ f n acc, natToDigitsAux f n acc =
    natToDigitsAux f n [] ++ acc := by
  intro f
  induction f with
  | zero => intro n acc; rfl
  | succ f ih =>
    intro n acc
    by_cases h10 : n < 10
    · simp [natToDigitsAux, h10]
    · simp only [natToDigitsAux, h10, if_false]
      rw [ih (n / 10) (digitChar (n % 10) :: acc), ih (n / 10) [digitChar (n % 10)],
        List.append_assoc]
      rfl

theorem natToDigits_big {n : Nat} (h : 10 ≤ n) :
    natToDigits n = natToDigits (n / 10) ++ [digitChar (n % 10)] := by
  have h10 : ¬n < 10 := by omega
  show natToDigitsAux (n + 1) n [] = _
  obtain ⟨m, rfl⟩ : ∃ m, n = m + 1 := ⟨n - 1, by omega⟩
  rw [show natToDigitsAux (m + 1 + 1) (m + 1) [] =
      natToDigitsAux (m + 1) ((m + 1) / 10) [digitChar ((m + 1) % 10)] from
    by rw [natToDigitsAux]; rw [if_neg h10]]
  rw [natToDigitsAux_acc]
  rw [natToDigitsAux_extra ((m + 1) / 10) (m + 1) ((m + 1) / 10 + 1) []
    (Nat.div_lt_self (by omega) (by omega)) (Nat.lt_succ_self _)]
  rfl

theorem natToDigits_ne_nil (n : Nat) : natToDigits n ≠ [] := by
  by_cases h : n < 10
  · rw [natToDigits_small h]; simp
  · rw [natToDigits_big (by omega)]; simp

theorem natToDigits_all_num (n : Nat) : (natToDigits n).all isNum = true := by
  induction n using Nat.strong_induction_on with
  | _ n ih =>
    by_cases h : n < 10
    · rw [natToDigits_small h]
      simp [isNum_digitChar]
    · rw [natToDigits_big (by omega), List.all_append]
      rw [ih (n / 10) (Nat.div_lt_self (by omega) (by omega))]
      simp [isNum_digitChar]

/-! ## Reading digit strings back -/

theorem foldl_digits_acc : ∀ (l : List Char) (a : Nat),
    l.foldl (fun x c => x * 10 + charVal c) a =
      a * 10 ^ l.length + digitsVal l := by
  intro l
  induction l with
  | nil => intro a; simp [digitsVal]
  | cons c t ih =>
    intro a
    show t.foldl _ (a * 10 + charVal c) = _
    rw [ih (a * 10 + charVal c)]
    have hd : digitsVal (c :: t) = charVal c * 10 ^ t.length + digitsVal t := by
      show t.foldl _ (0 * 10 + charVal c) = _
      rw [ih (0 * 10 + charVal c)]
      ring
    rw [hd]
    simp [List.length_cons]
    ring

theorem digitsVal_cons (c : Char) (t : List Char) :
    digitsVal (c :: t) = charVal c * 10 ^ t.length + digitsVal t := by
  show t.foldl _ (0 * 10 + charVal c) = _
  rw [foldl_digits_acc]
  ring

theorem digitsVal_append (xs ys : List Char) :
    digitsVal (xs ++ ys) = digitsVal xs * 10 ^ ys.length + digitsVal ys := by
  show (xs ++ ys).foldl _ 0 = _
  rw [List.foldl_append, foldl_digits_acc]
  rfl

theorem digitsVal_append_single (xs : List Char) (c : Char) :
    digitsVal (xs ++ [c]) = digitsVal xs * 10 + charVal c := by
  rw [digitsVal_append]
  simp [digitsVal_cons, digitsVal]

theorem digitsVal_replicate_zero (k : Nat) (l : List Char) :
    digitsVal (List.replicate k '0' ++ l) = digitsVal l := by
  rw [digitsVal_append]
  have hz : digitsVal (List.replicate k '0') = 0 := by
    induction k with
    | zero => rfl
    | succ k ih =>
      rw [List.replicate_succ, digitsVal_cons, ih]
      simp [show charVal '0' = 0 from rfl]
  rw [hz]
  simp

theorem digitsVal_natToDigits (n : Nat) : digitsVal (natToDigits n) = n := by
  induction n using Nat.strong_induction_on with
  | _ n ih =>
    by_cases h : n < 10
    · rw [natToDigits_small h, digitsVal_cons]
      simp [digitsVal, charVal_digitChar h]
    · rw [natToDigits_big (by omega), digitsVal_append_single,
        ih (n / 10) (Nat.div_lt_self (by omega) (by omega)),
        charVal_digitChar (Nat.mod_lt _ (by omega))]
      omega

theorem digitsVal_lt_pow {l : List Char} (h : l.all isNum = true) :
    digitsVal l < 10 ^ l.length := by
  induction l with
  | nil => decide
  | cons c t ih =>
    simp only [List.all_cons, Bool.and_eq_true] at h
    rw [digitsVal_cons]
    have h1 := charVal_le_nine h.1
    have h2 := ih h.2
    have h3 : (10 : Nat) ^ (c :: t).length = 10 * 10 ^ t.length := by
      simp [List.length_cons]
      ring
    rw [h3]
    nlinarith [Nat.pos_pow_of_pos t.length (show 0 < 10 by omega)]

/-! ## Lengths of decimal representations -/

theorem natLen_small {n : Nat} (h : n < 10) : natLen n = 1 := by
  rw [natLen, natToDigits_small h]
  rfl

theorem natLen_big {n : Nat} (h : 10 ≤ n) : natLen n = natLen (n / 10) + 1 := by
  rw [natLen, natToDigits_big h]
  simp [natLen]

theorem natLen_pos (n : Nat) : 1 ≤ natLen n := by
  by_cases h : n < 10
  · rw [natLen_small h]
  · rw [natLen_big (by omega)]
    omega

theorem natLen_le_of_lt_pow : ∀ (L n : Nat), n < 10 ^ L → 1 ≤ L → natLen n ≤ L := by
  intro L
  induction L with
  | zero => intro n _ h1; omega
  | succ L ih =>
    intro n hn _
    by_cases h : n < 10
    · rw [natLen_small h]
      omega
    · have hL : 1 ≤ L := by
        by_contra hc
        have : L = 0 := by omega
        subst this
        simp at hn
        omega
      rw [natLen_big (by omega)]
      have : n / 10 < 10 ^ L := by
        rw [Nat.div_lt_iff_lt_mul (by omega)]
        calc n < 10 ^ (L + 1) := hn
        _ = 10 ^ L * 10 := by ring
      exact Nat.add_le_add_right (ih (n / 10) this hL) 1

theorem natLen_lt_pow (n : Nat) : n < 10 ^ natLen n := by
  induction n using Nat.strong_induction_on with
  | _ n ih =>
    by_cases h : n < 10
    · rw [natLen_small h]
      omega
    · rw [natLen_big (by omega)]
      have h1 := ih (n / 10) (Nat.div_lt_self (by omega) (by omega))
      have h2 : n < 10 * (n / 10) + 10 := by omega
      calc n < 10 * (n / 10) + 10 := h2
      _ ≤ 10 * (10 ^ natLen (n / 10) - 1) + 10 := by
            have := natLen_pos (n / 10)
            omega
      _ ≤ 10 ^ (natLen (n / 10) + 1) := by
            have : 1 ≤ 10 ^ natLen (n / 10) := Nat.one_le_pow _ _ (by omega)
            rw [pow_succ]
            omega

theorem natLen_succ_le (n : Nat) : natLen (n + 1) ≤ natLen n + 1 := by
  apply natLen_le_of_lt_pow
  · have h1 := natLen_lt_pow n
    have h2 : (10 : Nat) ^ natLen n < 10 ^ (natLen n + 1) := by
      rw [pow_succ]
      have : 1 ≤ (10 : Nat) ^ natLen n := Nat.one_le_pow _ _ (by omega)
      omega
    omega
  · have := natLen_pos n
    omega

theorem natToDigits_length (n : Nat) : (natToDigits n).length = natLen n := rfl


/-! ## Number parsing -/

theorem parseMag_some {b : Nat} {t : List Char} {n : Nat}
    (h : parseMag b t = some n) :
    n = digitsVal t ∧ t ≠ [] ∧ t.all isNum = true ∧ n ≤ b := by
  unfold parseMag at h
  split_ifs at h with h1 h2 h3
  have hn : digitsVal t = n := Option.some.inj h
  refine ⟨hn.symm, ?_, h2, by omega⟩
  intro he
  subst he
  exact h1 rfl

theorem parseMag_digits {b : Nat} {t : List Char} (hne : t ≠ [])
    (hall : t.all isNum = true) (hle : digitsVal t ≤ b) :
    parseMag b t = some (digitsVal t) := by
  unfold parseMag
  rw [if_neg (by simpa using hne), if_pos hall, if_pos hle]

theorem parseU32_digits {l : List Char} (hne : l ≠ []) (hall : l.all isNum = true)
    (hlt : digitsVal l < 2 ^ 32) : parseU32 l = some (digitsVal l) := by
  match l, hne with
  | c :: t, _ =>
    have hc : isNum c = true := by
      simp only [List.all_cons, Bool.and_eq_true] at hall
      exact hall.1
    unfold parseU32
    simp only [List.headD_cons]
    rw [if_neg (num_ne_plus hc)]
    exact parseMag_digits (by simp) hall (by omega)

theorem parseU32_some {s : List Char} {n : Nat} (h : parseU32 s = some n) :
    n < 2 ^ 32 ∧ 1 ≤ s.length ∧ natLen n ≤ s.length := by
  unfold parseU32 at h
  split_ifs at h with h1
  · obtain ⟨hn, hne, hall, hb⟩ := parseMag_some h
    have hs : s ≠ [] := by
      intro he
      subst he
      exact absurd h1 (by decide)
    have htl : 1 ≤ s.tail.length := by
      cases hx : s.tail with
      | nil => exact absurd hx hne
      | cons x y => simp [hx]
    have hlen : s.tail.length + 1 = s.length := by
      cases s with
      | nil => exact absurd rfl hs
      | cons x y => simp
    have hbound : digitsVal s.tail < 10 ^ s.tail.length := digitsVal_lt_pow hall
    have := natLen_le_of_lt_pow s.tail.length (digitsVal s.tail) hbound htl
    subst hn
    refine ⟨by omega, by omega, by omega⟩
  · obtain ⟨hn, hne, hall, hb⟩ := parseMag_some h
    have hsl : 1 ≤ s.length := by
      cases hx : s with
      | nil => exact absurd hx hne
      | cons x y => simp [hx]
    have hbound : digitsVal s < 10 ^ s.length := digitsVal_lt_pow hall
    have := natLen_le_of_lt_pow s.length (digitsVal s) hbound hsl
    subst hn
    refine ⟨by omega, hsl, by omega⟩

theorem parseI32_digits {l : List Char} (hne : l ≠ []) (hall : l.all isNum = true)
    (hlt : digitsVal l < 2 ^ 31) : parseI32 l = some (digitsVal l : Int) := by
  match l, hne with
  | c :: t, _ =>
    have hc : isNum c = true := by
      simp only [List.all_cons, Bool.and_eq_true] at hall
      exact hall.1
    unfold parseI32
    simp only [List.headD_cons]
    rw [if_neg (num_ne_plus hc), if_neg (num_ne_minus hc)]
    rw [parseMag_digits (by simp) hall (by omega)]
    rfl

theorem parseI32_some {s : List Char} {n : Int} (h : parseI32 s = some n) :
    n < 2 ^ 31 ∧ (n < 0 → s.headD ' ' = '-') := by
  unfold parseI32 at h
  split_ifs at h with h1 h2
  · cases hp : parseMag (2 ^ 31 - 1) s.tail with
    | none => rw [hp] at h; simp at h
    | some m =>
      rw [hp] at h
      obtain ⟨-, -, -, hb⟩ := parseMag_some hp
      have hn : (m : Int) = n := Option.some.inj h
      constructor
      · rw [← hn]; exact_mod_cast by omega
      · intro hneg
        rw [← hn] at hneg
        omega
  · cases hp : parseMag (2 ^ 31) s.tail with
    | none => rw [hp] at h; simp at h
    | some m =>
      rw [hp] at h
      obtain ⟨-, -, -, hb⟩ := parseMag_some hp
      have hn : -(m : Int) = n := Option.some.inj h
      refine ⟨?_, fun _ => h2⟩
      rw [← hn]
      omega
  · cases hp : parseMag (2 ^ 31 - 1) s with
    | none => rw [hp] at h; simp at h
    | some m =>
      rw [hp] at h
      obtain ⟨-, -, -, hb⟩ := parseMag_some hp
      have hn : (m : Int) = n := Option.some.inj h
      constructor
      · rw [← hn]; exact_mod_cast by omega
      · intro hneg
        rw [← hn] at hneg
        omega

/-! ## `ZeroPaddedInt` -/

theorem ZeroPaddedInt.fromStr_good {s : List Char} {z : ZeroPaddedInt}
    (h : ZeroPaddedInt.fromStr s = some z) : GoodZP z := by
  unfold ZeroPaddedInt.fromStr at h
  cases hp : parseU32 s with
  | none => rw [hp] at h; exact Option.noConfusion h
  | some n =>
    rw [hp] at h
    have he : (⟨n, s.length⟩ : ZeroPaddedInt) = z := Option.some.inj h
    subst he
    obtain ⟨hb, hl, hn⟩ := parseU32_some hp
    exact ⟨hl, hn, hb⟩

theorem renderZP_length (z : ZeroPaddedInt) :
    (renderZP z).length = max z.width (natLen z.value) := by
  rw [renderZP, List.length_append, List.length_replicate, natToDigits_length]
  omega

theorem renderZP_all_num (z : ZeroPaddedInt) : (renderZP z).all isNum = true := by
  rw [renderZP, List.all_append]
  have h1 : (List.replicate (z.width - natLen z.value) '0').all isNum = true := by
    rw [List.all_eq_true]
    intro c hc
    rw [List.eq_of_mem_replicate hc]
    decide
  rw [h1, natToDigits_all_num]
  rfl

theorem renderZP_ne_nil (z : ZeroPaddedInt) : renderZP z ≠ [] := by
  rw [renderZP]
  intro h
  exact natToDigits_ne_nil z.value (List.append_eq_nil.mp h).2

theorem digitsVal_renderZP (z : ZeroPaddedInt) : digitsVal (renderZP z) = z.value := by
  rw [renderZP, digitsVal_replicate_zero, digitsVal_natToDigits]

theorem renderZP_roundtrip {z : ZeroPaddedInt} (h : GoodZP z) :
    ZeroPaddedInt.fromStr (renderZP z) = some z := by
  obtain ⟨h1, h2, h3⟩ := h
  unfold ZeroPaddedInt.fromStr
  rw [parseU32_digits (renderZP_ne_nil z) (renderZP_all_num z)
    (by rw [digitsVal_renderZP]; exact h3)]
  show some (⟨digitsVal (renderZP z), (renderZP z).length⟩ : ZeroPaddedInt) = some z
  rw [digitsVal_renderZP, renderZP_length]
  have hm : max z.width (natLen z.value) = z.width := by omega
  rw [hm]


/-! ## Tokenizer lemmas -/

theorem splitDelims_ne_nil (s : List Char) : splitDelims s ≠ [] := by
  cases s with
  | nil => simp [splitDelims]
  | cons c rest =>
    rw [splitDelims]
    split_ifs
    · simp
    · cases h : splitDelims rest <;> simp

theorem splitDelims_no_delim {s : List Char} (h : ∀ c ∈ s, isDelim c = false) :
    splitDelims s = [s] := by
  induction s with
  | nil => rfl
  | cons c rest ih =>
    rw [splitDelims, if_neg (by simp [h c (List.mem_cons_self c rest)]),
      ih fun x hx => h x (List.mem_cons_of_mem _ hx)]

theorem splitDelims_append {xs : List Char} (d : Char) (ys : List Char)
    (hxs : ∀ c ∈ xs, isDelim c = false) (hd : isDelim d = true) :
    splitDelims (xs ++ d :: ys) = xs :: splitDelims ys := by
  induction xs with
  | nil =>
    rw [List.nil_append, splitDelims, if_pos hd]
  | cons c t ih =>
    have hc : ¬isDelim c = true := by
      simp [hxs c (List.mem_cons_self c t)]
    rw [List.cons_append, splitDelims, if_neg hc,
      ih fun x hx => hxs x (List.mem_cons_of_mem _ hx)]

theorem splitDelims_chunks {s : List Char} :
    ∀ t ∈ splitDelims s, ∀ c ∈ t, isDelim c = false := by
  induction s with
  | nil =>
    intro t ht c hc
    simp [splitDelims] at ht
    subst ht
    simp at hc
  | cons a rest ih =>
    intro t ht c hc
    rw [splitDelims] at ht
    by_cases ha : isDelim a = true
    · rw [if_pos ha] at ht
      rcases List.mem_cons.mp ht with h1 | h1
      · subst h1; simp at hc
      · exact ih t h1 c hc
    · rw [if_neg ha] at ht
      cases hsd : splitDelims rest with
      | nil => exact absurd hsd (splitDelims_ne_nil rest)
      | cons t0 ts =>
        rw [hsd] at ht
        dsimp only at ht
        rcases List.mem_cons.mp ht with h1 | h1
        · subst h1
          rcases List.mem_cons.mp hc with h2 | h2
          · subst h2; simpa using ha
          · exact ih t0 (by rw [hsd]; exact List.mem_cons_self _ _) c h2
        · exact ih t (by rw [hsd]; exact List.mem_cons_of_mem _ h1) c hc

theorem numPos_cons_num {c : Char} (l : List Char) (h : isNum c = true) :
    numPos (c :: l) = some 0 := by
  rw [numPos, if_pos h]

theorem numPos_none {l : List Char} (h : ∀ c ∈ l, isNum c = false) :
    numPos l = none := by
  induction l with
  | nil => rfl
  | cons c t ih =>
    rw [numPos, if_neg (by simp [h c (List.mem_cons_self c t)]),
      ih fun x hx => h x (List.mem_cons_of_mem _ hx)]
    rfl

theorem numPos_append {W : List Char} (d : Char) (D : List Char)
    (hW : ∀ c ∈ W, isNum c = false) (hd : isNum d = true) :
    numPos (W ++ d :: D) = some W.length := by
  induction W with
  | nil =>
    rw [List.nil_append]
    exact numPos_cons_num D hd
  | cons c t ih =>
    rw [List.cons_append, numPos, if_neg (by simp [hW c (List.mem_cons_self c t)]),
      ih fun x hx => hW x (List.mem_cons_of_mem _ hx)]
    rfl

theorem sliceBytes_ascii : ∀ (W R : List Char), (∀ c ∈ W, c.utf8Size = 1) →
    sliceBytes W.length (W ++ R) = some (W, R) := by
  intro W
  induction W with
  | nil => intro R _; simp [sliceBytes]
  | cons c t ih =>
    intro R h
    have hc : c.utf8Size = 1 := h c (List.mem_cons_self c t)
    show sliceBytes (t.length + 1) (c :: (t ++ R)) = _
    rw [sliceBytes, hc, if_pos (by omega)]
    simp only [Nat.add_sub_cancel]
    rw [ih R fun x hx => h x (List.mem_cons_of_mem _ hx)]

theorem sliceBytes_append {n : Nat} {l a b : List Char}
    (h : sliceBytes n l = some (a, b)) : a ++ b = l := by
  induction l generalizing n a b with
  | nil =>
    cases n with
    | zero =>
      have h2 := Option.some.inj h
      have ha : ([] : List Char) = a := congrArg Prod.fst h2
      have hb : ([] : List Char) = b := congrArg Prod.snd h2
      rw [← ha, ← hb]
      rfl
    | succ m => exact Option.noConfusion h
  | cons c rest ih =>
    cases n with
    | zero =>
      have h2 := Option.some.inj h
      have ha : ([] : List Char) = a := congrArg Prod.fst h2
      have hb : c :: rest = b := congrArg Prod.snd h2
      rw [← ha, ← hb]
      rfl
    | succ m =>
      rw [sliceBytes] at h
      split_ifs at h with hs
      cases hrec : sliceBytes (m + 1 - c.utf8Size) rest with
      | none => rw [hrec] at h; exact Option.noConfusion h
      | some ab =>
        rw [hrec] at h
        obtain ⟨a0, b0⟩ := ab
        dsimp only at h
        have h2 := Option.some.inj h
        have ha : c :: a0 = a := congrArg Prod.fst h2
        have hb : b0 = b := congrArg Prod.snd h2
        rw [← ha, ← hb]
        rw [List.cons_append, ih hrec]

theorem splitAlphaNum_all_num {l : List Char} (hne : l ≠ [])
    (hall : l.all isNum = true) : splitAlphaNum l = some [l] := by
  match l, hne with
  | c :: t, _ =>
    have hc : isNum c = true := by
      simp only [List.all_cons, Bool.and_eq_true] at hall
      exact hall.1
    unfold splitAlphaNum
    rw [numPos_cons_num t hc]
    dsimp only
    rw [if_neg (by omega)]

theorem splitAlphaNum_no_num {l : List Char} (h : ∀ c ∈ l, isNum c = false) :
    splitAlphaNum l = some [l] := by
  unfold splitAlphaNum
  rw [numPos_none h]

theorem splitAlphaNum_word_num {W : List Char} (d : Char) (D : List Char)
    (hWne : W ≠ []) (hWnum : ∀ c ∈ W, isNum c = false)
    (hW1 : ∀ c ∈ W, c.utf8Size = 1) (hd : isNum d = true) :
    splitAlphaNum (W ++ d :: D) = some [W, d :: D] := by
  unfold splitAlphaNum
  rw [numPos_append d D hWnum hd]
  dsimp only
  have hlen : 0 < W.length := List.length_pos.mpr hWne
  rw [if_pos hlen, sliceBytes_ascii W (d :: D) hW1]

theorem splitAlphaNum_mem {s : List Char} {l : List (List Char)}
    (h : splitAlphaNum s = some l) : ∀ t ∈ l, ∀ c ∈ t, c ∈ s := by
  unfold splitAlphaNum at h
  cases hnp : numPos s with
  | none =>
    rw [hnp] at h
    have hl : [s] = l := Option.some.inj h
    subst hl
    intro t ht c hc
    simp at ht
    subst ht
    exact hc
  | some p =>
    rw [hnp] at h
    dsimp only at h
    split_ifs at h with hp
    · cases hsl : sliceBytes p s with
      | none => rw [hsl] at h; exact Option.noConfusion h
      | some ab =>
        rw [hsl] at h
        obtain ⟨a, b⟩ := ab
        dsimp only at h
        have hl : [a, b] = l := Option.some.inj h
        subst hl
        have hab : a ++ b = s := sliceBytes_append hsl
        intro t ht c hc
        rcases List.mem_cons.mp ht with h1 | h1
        · subst h1
          rw [← hab]
          exact List.mem_append_left b hc
        · simp at h1
          subst h1
          rw [← hab]
          exact List.mem_append_right a hc
    · have hl : [s] = l := Option.some.inj h
      subst hl
      intro t ht c hc
      simp at ht
      subst ht
      exact hc

theorem mapOption_cons_some {f : α → Option β} {a : α} {l : List α} {b : β}
    {bs : List β} (h1 : f a = some b) (h2 : mapOption f l = some bs) :
    mapOption f (a :: l) = some (b :: bs) := by
  unfold mapOption
  rw [h1, h2]

theorem mapOption_mem {f : α → Option β} {l : List α} {l2 : List β}
    (h : mapOption f l = some l2) : ∀ b ∈ l2, ∃ a ∈ l, f a = some b := by
  induction l generalizing l2 with
  | nil =>
    have : ([] : List β) = l2 := Option.some.inj h
    subst this
    intro b hb
    simp at hb
  | cons a t ih =>
    unfold mapOption at h
    cases hfa : f a with
    | none => rw [hfa] at h; exact Option.noConfusion h
    | some b0 =>
      rw [hfa] at h
      cases hmt : mapOption f t with
      | none => rw [hmt] at h; exact Option.noConfusion h
      | some bs =>
        rw [hmt] at h
        dsimp only at h
        have hl : b0 :: bs = l2 := Option.some.inj h
        subst hl
        intro b hb
        rcases List.mem_cons.mp hb with h1 | h1
        · subst h1
          exact ⟨a, List.mem_cons_self a t, hfa⟩
        · obtain ⟨a0, ha0, hfa0⟩ := ih hmt b h1
          exact ⟨a0, List.mem_cons_of_mem _ ha0, hfa0⟩

theorem tokenize_clean {s : List Char} {parts : List (List Char)}
    (h : tokenize s = some parts) : ∀ t ∈ parts, ∀ c ∈ t, isDelim c = false := by
  unfold tokenize at h
  cases hm : mapOption splitAlphaNum (splitDelims s) with
  | none => rw [hm] at h; exact Option.noConfusion h
  | some ls =>
    rw [hm] at h
    dsimp only at h
    have hp : ls.flatten.map lowerTok = parts := Option.some.inj h
    subst hp
    intro t ht c hc
    obtain ⟨u, hu, hut⟩ := List.mem_map.mp ht
    obtain ⟨c0, hc0, hcc⟩ : ∃ c0 ∈ u, lowerChar c0 = c := by
      rw [← hut] at hc
      exact List.mem_map.mp hc
    obtain ⟨l0, hl0, hul⟩ := List.mem_flatten.mp hu
    obtain ⟨chunk, hchunk, hsp⟩ := mapOption_mem hm l0 hl0
    have hcs : c0 ∈ chunk := splitAlphaNum_mem hsp u hul c0 hc0
    have hnd : isDelim c0 = false := splitDelims_chunks chunk hchunk c0 hcs
    cases hdel : isDelim c with
    | false => rfl
    | true =>
      rw [← hcc] at hdel
      rw [isDelim_lowerChar hdel] at hnd
      exact Bool.noConfusion hnd

/-! ## Vocabulary lemmas -/

theorem ne_of_head_not_num {t : List Char} (hne : t ≠ [])
    (hall : t.all isNum = true) (w : List Char)
    (hw : isNum (w.headD ' ') = false) : ¬t = w := by
  intro he
  subst he
  match t, hne with
  | c :: u, _ =>
    simp only [List.all_cons, Bool.and_eq_true] at hall
    rw [List.headD_cons] at hw
    rw [hall.1] at hw
    exact Bool.noConfusion hw

theorem num_not_delim {c : Char} (h : isNum c = true) : isDelim c = false := by
  have hb := isNum_iff.mp h
  cases hd : isDelim c with
  | false => rfl
  | true =>
    rcases isDelim_iff.mp hd with h2 | h2 | h2 <;> subst h2 <;>
      exact absurd hb (by decide)

theorem parseMonth_num {t : List Char} (hne : t ≠ [])
    (hall : t.all isNum = true) : parseMonth t = none := by
  have hlt : lowerTok t = t := lowerTok_all_num hall
  have hfind :
      (monthNames.find? fun q => lowerTok t == q.1 || lowerTok t == q.1.take 3) =
        none := by
    rw [List.find?_eq_none]
    intro q hq
    simp only [Bool.or_eq_true, beq_iff_eq, hlt, not_or]
    fin_cases hq <;>
      exact ⟨ne_of_head_not_num hne hall _ (by decide),
        ne_of_head_not_num hne hall _ (by decide)⟩
  rw [parseMonth, hfind]
  rfl

theorem preFromStr_num {t : List Char} (hne : t ≠ [])
    (hall : t.all isNum = true) : SemVerPre.fromStr t = none := by
  unfold SemVerPre.fromStr
  rw [lowerTok_all_num hall,
    if_neg (ne_of_head_not_num hne hall _ (by decide))]

theorem suffixFromStr_num {t : List Char} (hne : t ≠ [])
    (hall : t.all isNum = true) : SemVerSuffix.fromStr t = none := by
  unfold SemVerSuffix.fromStr
  rw [lowerTok_all_num hall]
  rw [if_neg (ne_of_head_not_num hne hall _ (by decide)),
    if_neg (ne_of_head_not_num hne hall _ (by decide)),
    if_neg (ne_of_head_not_num hne hall _ (by decide)),
    if_neg (ne_of_head_not_num hne hall _ (by decide)),
    if_neg (ne_of_head_not_num hne hall _ (by decide)),
    if_neg (ne_of_head_not_num hne hall _ (by decide)),
    if_neg (ne_of_head_not_num hne hall _ (by decide)),
    if_neg (ne_of_head_not_num hne hall _ (by decide))]

theorem suffix_canonical_fromStr (s : SemVerSuffix) :
    SemVerSuffix.fromStr (lowerTok s.canonical) = some s := by
  cases s <;> rfl

theorem suffix_canonical_ne_nil (s : SemVerSuffix) : s.canonical ≠ [] := by
  cases s <;> decide

theorem suffix_canonical_not_num (s : SemVerSuffix) :
    ∀ c ∈ s.canonical, isNum c = false := by
  cases s <;> decide

theorem suffix_canonical_ascii (s : SemVerSuffix) :
    ∀ c ∈ s.canonical, c.utf8Size = 1 := by
  cases s <;> decide

theorem intToStr_of_nonneg {n : Int} (h : 0 ≤ n) :
    intToStr n = natToDigits n.toNat := by
  unfold intToStr
  rw [if_neg (by omega)]
  congr 1
  omega

/-! ## Stage lemmas -/

theorem stageRelease_mem {parts : List (List Char)} {t : List Char}
    (h : t ∈ (stageRelease parts).2) : t ∈ parts := by
  unfold stageRelease at h
  dsimp only at h
  split_ifs at h with h1
  · exact List.mem_of_mem_tail h
  · exact h

theorem stageMonth_mem {parts parts2 : List (List Char)} {t : List Char}
    (h : stageMonth parts = some parts2) (ht : t ∈ parts2) :
    t ∈ parts ∨ ∃ m, t = natToDigits m := by
  unfold stageMonth at h
  cases hg : parts.get? 1 with
  | none => rw [hg] at h; exact Option.noConfusion h
  | some t1 =>
    rw [hg] at h
    dsimp only at h
    cases hpm : parseMonth t1 with
    | none =>
      rw [hpm] at h
      have : parts = parts2 := Option.some.inj h
      subst this
      exact Or.inl ht
    | some m =>
      rw [hpm] at h
      have : parts.set 1 (natToDigits m) = parts2 := Option.some.inj h
      subst this
      rcases List.mem_or_eq_of_mem_set ht with h1 | h1
      · exact Or.inl h1
      · exact Or.inr ⟨m, h1⟩

theorem stageArity_mem {parts parts2 : List (List Char)} {t : List Char}
    (h : stageArity parts = some parts2) (ht : t ∈ parts2) :
    t ∈ parts ∨ t = "0".toList := by
  unfold stageArity at h
  split_ifs at h with h1 h2
  · have : parts ++ ["0".toList] = parts2 := Option.some.inj h
    subst this
    rcases List.mem_append.mp ht with h3 | h3
    · exact Or.inl h3
    · simp at h3
      exact Or.inr h3
  · have : parts = parts2 := Option.some.inj h
    subst this
    exact Or.inl ht

theorem stageSuffix_mem {parts : List (List Char)} {t : List Char}
    (h : t ∈ (stageSuffix parts).2) : t ∈ parts := by
  unfold stageSuffix at h
  by_cases h1 : 4 ≤ parts.length
  · rw [if_pos h1] at h
    cases hs : SemVerSuffix.fromStr (parts.getD 3 []) with
    | some sp =>
      rw [hs] at h
      dsimp only at h
      exact List.mem_of_mem_eraseIdx h
    | none =>
      rw [hs] at h
      dsimp only at h
      by_cases h2 : parts.getD 3 [] = "v".toList
      · rw [if_pos h2] at h
        exact List.mem_of_mem_eraseIdx h
      · rw [if_neg h2] at h
        exact h
  · rw [if_neg h1] at h
    exact h

theorem stageSuffixVersion_mem {sp : Option SemVerSuffix}
    {parts : List (List Char)} {sp2 : Option SemVerSuffix} {sv : Option Int}
    {parts5 : List (List Char)} {t : List Char}
    (h : stageSuffixVersion sp parts = some (sp2, sv, parts5))
    (ht : t ∈ parts5) : t ∈ parts := by
  unfold stageSuffixVersion at h
  by_cases h1 : 4 ≤ parts.length
  · rw [if_pos h1] at h
    cases hp : parseI32 (parts.getD 3 []) with
    | none => rw [hp] at h; exact Option.noConfusion h
    | some n =>
      rw [hp] at h
      dsimp only at h
      have h2 := Option.some.inj h
      have h3 : parts.eraseIdx 3 = parts5 := congrArg (fun q => q.2.2) h2
      rw [← h3] at ht
      exact List.mem_of_mem_eraseIdx ht
  · rw [if_neg h1] at h
    have h2 := Option.some.inj h
    have h3 : parts = parts5 := congrArg (fun q => q.2.2) h2
    rw [← h3] at ht
    exact ht

theorem stageSuffixVersion_bound {sp : Option SemVerSuffix}
    {parts : List (List Char)} {sp2 : Option SemVerSuffix} {sv : Option Int}
    {parts5 : List (List Char)}
    (h : stageSuffixVersion sp parts = some (sp2, sv, parts5))
    (hclean : ∀ t ∈ parts, ∀ c ∈ t, isDelim c = false) :
    ∀ n : Int, sv = some n → 0 ≤ n ∧ n < 2 ^ 31 := by
  unfold stageSuffixVersion at h
  by_cases h1 : 4 ≤ parts.length
  · rw [if_pos h1] at h
    cases hp : parseI32 (parts.getD 3 []) with
    | none => rw [hp] at h; exact Option.noConfusion h
    | some n0 =>
      rw [hp] at h
      dsimp only at h
      have h2 := Option.some.inj h
      have hsv : some n0 = sv := congrArg (fun q => q.2.1) h2
      intro n hn
      rw [← hsv] at hn
      have hnn : n0 = n := Option.some.inj hn
      subst hnn
      obtain ⟨hub, hneg⟩ := parseI32_some hp
      refine ⟨?_, hub⟩
      by_contra hlt
      push_neg at hlt
      have hd := hneg hlt
      have h3 : 3 < parts.length := by omega
      have htok : parts.getD 3 [] ∈ parts := by
        rw [List.getD_eq_getElem _ _ h3]
        exact List.getElem_mem h3
      cases hx : parts.getD 3 [] with
      | nil => rw [hx] at hd; exact absurd hd (by decide)
      | cons c0 u =>
        rw [hx] at hd
        rw [List.headD_cons] at hd
        subst hd
        have hcl := hclean _ htok '-' (by rw [hx]; exact List.mem_cons_self _ _)
        exact absurd hcl (by decide)
  · rw [if_neg h1] at h
    have h2 := Option.some.inj h
    have hsv : (none : Option Int) = sv := congrArg (fun q => q.2.1) h2
    intro n hn
    rw [← hsv] at hn
    exact Option.noConfusion hn

theorem stageTriple_good {parts : List (List Char)}
    {x y z : ZeroPaddedInt} (h : stageTriple parts = some (x, y, z)) :
    GoodZP x ∧ GoodZP y ∧ GoodZP z := by
  unfold stageTriple at h
  match parts with
  | [] => exact Option.noConfusion h
  | [t0] => exact Option.noConfusion h
  | [t0, t1] => exact Option.noConfusion h
  | t0 :: t1 :: t2 :: rest =>
    dsimp only at h
    cases h0 : ZeroPaddedInt.fromStr t0 with
    | none => rw [h0] at h; exact Option.noConfusion h
    | some x0 =>
      cases h1 : ZeroPaddedInt.fromStr t1 with
      | none => rw [h0, h1] at h; exact Option.noConfusion h
      | some y0 =>
        cases h2 : ZeroPaddedInt.fromStr t2 with
        | none => rw [h0, h1, h2] at h; exact Option.noConfusion h
        | some z0 =>
          rw [h0, h1, h2] at h
          dsimp only at h
          have he := Option.some.inj h
          have hx : x0 = x := congrArg (fun q => q.1) he
          have hy : y0 = y := congrArg (fun q => q.2.1) he
          have hz : z0 = z := congrArg (fun q => q.2.2) he
          subst hx hy hz
          exact ⟨ZeroPaddedInt.fromStr_good h0, ZeroPaddedInt.fromStr_good h1,
            ZeroPaddedInt.fromStr_good h2⟩

theorem fromStr_ok_inv {s : List Char} {v : SemVer}
    (h : SemVer.fromStr s = PResult.ok v) : SemVerInv v := by
  unfold SemVer.fromStr at h
  cases htk : tokenize s with
  | none => rw [htk] at h; exact PResult.noConfusion h
  | some parts0 =>
    rw [htk] at h
    dsimp only at h
    by_cases he : parts0.isEmpty
    · rw [if_pos he] at h; exact PResult.noConfusion h
    · rw [if_neg he] at h
      rcases hsr : stageRelease parts0 with ⟨pr, parts1⟩
      rw [hsr] at h
      dsimp only at h
      cases hsm : stageMonth parts1 with
      | none => rw [hsm] at h; exact PResult.noConfusion h
      | some parts2 =>
        rw [hsm] at h
        dsimp only at h
        cases hsa : stageArity parts2 with
        | none => rw [hsa] at h; exact PResult.noConfusion h
        | some parts3 =>
          rw [hsa] at h
          dsimp only at h
          rcases hss : stageSuffix parts3 with ⟨sp, parts4⟩
          rw [hss] at h
          dsimp only at h
          cases hsv : stageSuffixVersion sp parts4 with
          | none => rw [hsv] at h; exact PResult.noConfusion h
          | some trip =>
            obtain ⟨sp2, sv, parts5⟩ := trip
            rw [hsv] at h
            dsimp only at h
            cases hst : stageTriple parts5 with
            | none => rw [hst] at h; exact PResult.noConfusion h
            | some xyz =>
              obtain ⟨x, y, z⟩ := xyz
              rw [hst] at h
              dsimp only at h
              have hv := PResult.ok.inj h
              subst hv
              have c0 := tokenize_clean htk
              have c1 : ∀ t ∈ parts1, ∀ c ∈ t, isDelim c = false := by
                intro t ht c hc
                have ht0 : t ∈ (stageRelease parts0).2 := by
                  rw [hsr]; exact ht
                exact c0 t (stageRelease_mem ht0) c hc
              have c2 : ∀ t ∈ parts2, ∀ c ∈ t, isDelim c = false := by
                intro t ht c hc
                rcases stageMonth_mem hsm ht with h1 | ⟨m, h1⟩
                · exact c1 t h1 c hc
                · subst h1
                  have := List.all_eq_true.mp (natToDigits_all_num m) c hc
                  exact num_not_delim this
              have c3 : ∀ t ∈ parts3, ∀ c ∈ t, isDelim c = false := by
                intro t ht c hc
                rcases stageArity_mem hsa ht with h1 | h1
                · exact c2 t h1 c hc
                · subst h1
                  simp at hc
                  subst hc
                  decide
              have c4 : ∀ t ∈ parts4, ∀ c ∈ t, isDelim c = false := by
                intro t ht c hc
                have ht0 : t ∈ (stageSuffix parts3).2 := by
                  rw [hss]; exact ht
                exact c3 t (stageSuffix_mem ht0) c hc
              have bound := stageSuffixVersion_bound hsv c4
              obtain ⟨gx, gy, gz⟩ := stageTriple_good hst
              refine ⟨gx, gy, gz, ?_⟩
              intro u hu n hn
              cases sp2 with
              | none => exact Option.noConfusion hu
              | some s0 =>
                have hu2 : (⟨s0, sv⟩ : SemVerPair) = u := Option.some.inj hu
                rw [← hu2] at hn
                exact bound n hn

/-! ## Tokenizing a rendered value -/

theorem all_num_no_delim {l : List Char} (hall : l.all isNum = true) :
    ∀ c ∈ l, isDelim c = false := fun c hc =>
  num_not_delim (List.all_eq_true.mp hall c hc)

theorem no_delim_append {a b : List Char} (ha : ∀ c ∈ a, isDelim c = false)
    (hb : ∀ c ∈ b, isDelim c = false) : ∀ c ∈ a ++ b, isDelim c = false := by
  intro c hc
  rcases List.mem_append.mp hc with h | h
  · exact ha c h
  · exact hb c h

theorem exists_cons_of_all_num {D : List Char} (hne : D ≠ [])
    (hall : D.all isNum = true) :
    ∃ d D2, D = d :: D2 ∧ isNum d = true := by
  match D, hne with
  | d :: D2, _ =>
    simp only [List.all_cons, Bool.and_eq_true] at hall
    exact ⟨d, D2, rfl, hall.1⟩

theorem splitAlphaNum_word_allnum {W D : List Char} (hWne : W ≠ [])
    (hWnum : ∀ c ∈ W, isNum c = false) (hW1 : ∀ c ∈ W, c.utf8Size = 1)
    (hDne : D ≠ []) (hDall : D.all isNum = true) :
    splitAlphaNum (W ++ D) = some [W, D] := by
  obtain ⟨d, D2, hD, hd⟩ := exists_cons_of_all_num hDne hDall
  subst hD
  exact splitAlphaNum_word_num d D2 hWne hWnum hW1 hd

theorem suffix_canonical_no_delim (s : SemVerSuffix) :
    ∀ c ∈ s.canonical, isDelim c = false := by
  cases s <;> decide

theorem lowerTok_v : lowerTok ['v'] = ['v'] := by decide
theorem tokenize_render (v : SemVer) (hinv : SemVerInv v) :
    tokenize (SemVer.render v) = some (expectedParts v) := by
  obtain ⟨pre, mj, mn, pt, sfx⟩ := v
  obtain ⟨-, -, -, hver⟩ := hinv
  have hA := renderZP_all_num mj
  have hB := renderZP_all_num mn
  have hC := renderZP_all_num pt
  have hAd := all_num_no_delim hA
  have hBd := all_num_no_delim hB
  have hCd := all_num_no_delim hC
  have hAs := splitAlphaNum_all_num (renderZP_ne_nil mj) hA
  have hBs := splitAlphaNum_all_num (renderZP_ne_nil mn) hB
  have hCs := splitAlphaNum_all_num (renderZP_ne_nil pt) hC
  have hvA : ∀ c ∈ 'v' :: renderZP mj, isDelim c = false := by
    intro c hc
    rcases List.mem_cons.mp hc with h | h
    · subst h; decide
    · exact hAd c h
  have hvAs : splitAlphaNum ('v' :: renderZP mj) = some [['v'], renderZP mj] := by
    show splitAlphaNum (['v'] ++ renderZP mj) = _
    exact splitAlphaNum_word_allnum (by decide) (by decide) (by decide)
      (renderZP_ne_nil mj) hA
  cases sfx with
  | none =>
    cases pre with
    | none =>
      have hr : SemVer.render ⟨none, mj, mn, pt, none⟩ =
          renderZP mj ++ '.' :: (renderZP mn ++ '.' :: renderZP pt) := by
        unfold SemVer.render
        dsimp only
        simp only [List.append_assoc, List.cons_append, List.nil_append,
          List.append_nil]
      have hmo : mapOption splitAlphaNum
          [renderZP mj, renderZP mn, renderZP pt] =
          some [[renderZP mj], [renderZP mn], [renderZP pt]] :=
        mapOption_cons_some hAs (mapOption_cons_some hBs
          (mapOption_cons_some hCs rfl))
      unfold tokenize
      rw [hr, splitDelims_append '.' _ hAd (by decide),
        splitDelims_append '.' _ hBd (by decide),
        splitDelims_no_delim hCd, hmo]
      dsimp only
      simp only [List.flatten, List.map, List.append_nil]
      rw [lowerTok_all_num hA, lowerTok_all_num hB, lowerTok_all_num hC]
      rfl
    | some q =>
      cases q
      have hr : SemVer.render ⟨some SemVerPre.v, mj, mn, pt, none⟩ =
          ('v' :: renderZP mj) ++ '.' :: (renderZP mn ++ '.' :: renderZP pt) := by
        unfold SemVer.render SemVerPre.canonical
        dsimp only
        simp only [List.append_assoc, List.cons_append, List.nil_append,
          List.append_nil, String.toList]
      have hmo : mapOption splitAlphaNum
          ['v' :: renderZP mj, renderZP mn, renderZP pt] =
          some [[['v'], renderZP mj], [renderZP mn], [renderZP pt]] :=
        mapOption_cons_some hvAs (mapOption_cons_some hBs
          (mapOption_cons_some hCs rfl))
      unfold tokenize
      rw [hr, splitDelims_append '.' _ hvA (by decide),
        splitDelims_append '.' _ hBd (by decide),
        splitDelims_no_delim hCd, hmo]
      dsimp only
      simp only [List.flatten, List.map, List.append_nil]
      rw [lowerTok_all_num hA, lowerTok_all_num hB, lowerTok_all_num hC,
        lowerTok_v]
      rfl
  | some sp =>
    obtain ⟨s0, ver⟩ := sp
    have hW := suffix_canonical_no_delim s0
    have hWs : splitAlphaNum s0.canonical = some [s0.canonical] :=
      splitAlphaNum_no_num (suffix_canonical_not_num s0)
    cases ver with
    | none =>
      cases pre with
      | none =>
        have hr : SemVer.render ⟨none, mj, mn, pt, some ⟨s0, none⟩⟩ =
            renderZP mj ++ '.' :: (renderZP mn ++ '.' ::
              (renderZP pt ++ '-' :: s0.canonical)) := by
          unfold SemVer.render renderSuffix
          dsimp only
          simp only [List.append_assoc, List.cons_append, List.nil_append,
            List.append_nil]
        have hmo : mapOption splitAlphaNum
            [renderZP mj, renderZP mn, renderZP pt, s0.canonical] =
            some [[renderZP mj], [renderZP mn], [renderZP pt], [s0.canonical]] :=
          mapOption_cons_some hAs (mapOption_cons_some hBs
            (mapOption_cons_some hCs (mapOption_cons_some hWs rfl)))
        unfold tokenize
        rw [hr, splitDelims_append '.' _ hAd (by decide),
          splitDelims_append '.' _ hBd (by decide),
          splitDelims_append '-' _ hCd (by decide),
          splitDelims_no_delim hW, hmo]
        dsimp only
        simp only [List.flatten, List.map, List.append_nil]
        rw [lowerTok_all_num hA, lowerTok_all_num hB, lowerTok_all_num hC]
        rfl
      | some q =>
        cases q
        have hr : SemVer.render ⟨some SemVerPre.v, mj, mn, pt, some ⟨s0, none⟩⟩ =
            ('v' :: renderZP mj) ++ '.' :: (renderZP mn ++ '.' ::
              (renderZP pt ++ '-' :: s0.canonical)) := by
          unfold SemVer.render SemVerPre.canonical renderSuffix
          dsimp only
          simp only [List.append_assoc, List.cons_append, List.nil_append,
            List.append_nil, String.toList]
        have hmo : mapOption splitAlphaNum
            ['v' :: renderZP mj, renderZP mn, renderZP pt, s0.canonical] =
            some [[['v'], renderZP mj], [renderZP mn], [renderZP pt],
              [s0.canonical]] :=
          mapOption_cons_some hvAs (mapOption_cons_some hBs
            (mapOption_cons_some hCs (mapOption_cons_some hWs rfl)))
        unfold tokenize
        rw [hr, splitDelims_append '.' _ hvA (by decide),
          splitDelims_append '.' _ hBd (by decide),
          splitDelims_append '-' _ hCd (by decide),
          splitDelims_no_delim hW, hmo]
        dsimp only
        simp only [List.flatten, List.map, List.append_nil]
        rw [lowerTok_all_num hA, lowerTok_all_num hB, lowerTok_all_num hC,
          lowerTok_v]
        rfl
    | some n =>
      have hn : 0 ≤ n := (hver ⟨s0, some n⟩ rfl n rfl).1
      have hD := natToDigits_all_num n.toNat
      have hDne := natToDigits_ne_nil n.toNat
      have hWD : ∀ c ∈ s0.canonical ++ natToDigits n.toNat, isDelim c = false :=
        no_delim_append hW (all_num_no_delim hD)
      have hWDs : splitAlphaNum (s0.canonical ++ natToDigits n.toNat) =
          some [s0.canonical, natToDigits n.toNat] :=
        splitAlphaNum_word_allnum (suffix_canonical_ne_nil s0)
          (suffix_canonical_not_num s0) (suffix_canonical_ascii s0) hDne hD
      have hi : intToStr n = natToDigits n.toNat := intToStr_of_nonneg hn
      cases pre with
      | none =>
        have hr : SemVer.render ⟨none, mj, mn, pt, some ⟨s0, some n⟩⟩ =
            renderZP mj ++ '.' :: (renderZP mn ++ '.' ::
              (renderZP pt ++ '-' :: (s0.canonical ++ natToDigits n.toNat))) := by
          unfold SemVer.render renderSuffix
          dsimp only
          rw [hi]
          simp only [List.append_assoc, List.cons_append, List.nil_append,
            List.append_nil]
        have hmo : mapOption splitAlphaNum
            [renderZP mj, renderZP mn, renderZP pt,
              s0.canonical ++ natToDigits n.toNat] =
            some [[renderZP mj], [renderZP mn], [renderZP pt],
              [s0.canonical, natToDigits n.toNat]] :=
          mapOption_cons_some hAs (mapOption_cons_some hBs
            (mapOption_cons_some hCs (mapOption_cons_some hWDs rfl)))
        unfold tokenize
        rw [hr, splitDelims_append '.' _ hAd (by decide),
          splitDelims_append '.' _ hBd (by decide),
          splitDelims_append '-' _ hCd (by decide),
          splitDelims_no_delim hWD, hmo]
        dsimp only
        simp only [List.flatten, List.map, List.append_nil]
        rw [lowerTok_all_num hA, lowerTok_all_num hB, lowerTok_all_num hC,
          lowerTok_all_num hD]
        rfl
      | some q =>
        cases q
        have hr : SemVer.render ⟨some SemVerPre.v, mj, mn, pt, some ⟨s0, some n⟩⟩ =
            ('v' :: renderZP mj) ++ '.' :: (renderZP mn ++ '.' ::
              (renderZP pt ++ '-' :: (s0.canonical ++ natToDigits n.toNat))) := by
          unfold SemVer.render SemVerPre.canonical renderSuffix
          dsimp only
          rw [hi]
          simp only [List.append_assoc, List.cons_append, List.nil_append,
            List.append_nil, String.toList]
        have hmo : mapOption splitAlphaNum
            ['v' :: renderZP mj, renderZP mn, renderZP pt,
              s0.canonical ++ natToDigits n.toNat] =
            some [[['v'], renderZP mj], [renderZP mn], [renderZP pt],
              [s0.canonical, natToDigits n.toNat]] :=
          mapOption_cons_some hvAs (mapOption_cons_some hBs
            (mapOption_cons_some hCs (mapOption_cons_some hWDs rfl)))
        unfold tokenize
        rw [hr, splitDelims_append '.' _ hvA (by decide),
          splitDelims_append '.' _ hBd (by decide),
          splitDelims_append '-' _ hCd (by decide),
          splitDelims_no_delim hWD, hmo]
        dsimp only
        simp only [List.flatten, List.map, List.append_nil]
        rw [lowerTok_all_num hA, lowerTok_all_num hB, lowerTok_all_num hC,
          lowerTok_all_num hD, lowerTok_v]
        rfl

/-! ## Evaluating the classifier on tokenized rendered values -/

theorem stageRelease_eval_num {A : List Char} (hne : A ≠ [])
    (hall : A.all isNum = true) (rest : List (List Char)) :
    stageRelease (A :: rest) = (none, A :: rest) := by
  unfold stageRelease
  dsimp only [List.headD_cons, List.tail_cons]
  rw [preFromStr_num hne hall]
  rw [if_neg]
  simp only [Option.isSome_none, Bool.false_or, decide_eq_true_eq]
  exact ne_of_head_not_num hne hall _ (by decide)

theorem stageRelease_eval_v (rest : List (List Char)) :
    stageRelease ("v".toList :: rest) = (some SemVerPre.v, rest) := by
  unfold stageRelease
  dsimp only [List.headD_cons, List.tail_cons]
  rw [show SemVerPre.fromStr "v".toList = some SemVerPre.v from rfl]
  rw [if_pos (by decide)]

theorem stageMonth_eval_num {B : List Char} (hne : B ≠ [])
    (hall : B.all isNum = true) (A : List Char) (rest : List (List Char)) :
    stageMonth (A :: B :: rest) = some (A :: B :: rest) := by
  unfold stageMonth
  rw [show (A :: B :: rest).get? 1 = some B from rfl]
  dsimp only
  rw [parseMonth_num hne hall]

theorem stageArity_eval {parts : List (List Char)} (h : 3 ≤ parts.length) :
    stageArity parts = some parts := by
  unfold stageArity
  rw [if_neg (by omega), if_neg (by omega)]

theorem stageSuffix_eval_short {parts : List (List Char)}
    (h : parts.length < 4) : stageSuffix parts = (none, parts) := by
  unfold stageSuffix
  rw [if_neg (by omega)]

theorem stageSuffix_eval_word (A B C : List Char) (s0 : SemVerSuffix)
    (rest : List (List Char)) :
    stageSuffix (A :: B :: C :: lowerTok s0.canonical :: rest) =
      (some s0, A :: B :: C :: rest) := by
  unfold stageSuffix
  rw [if_pos (by simp)]
  rw [show (A :: B :: C :: lowerTok s0.canonical :: rest).getD 3 [] =
    lowerTok s0.canonical from rfl]
  rw [suffix_canonical_fromStr s0]
  rfl

theorem stageSuffixVersion_eval_short {parts : List (List Char)}
    (sp : Option SemVerSuffix) (h : parts.length < 4) :
    stageSuffixVersion sp parts = some (sp, none, parts) := by
  unfold stageSuffixVersion
  rw [if_neg (by omega)]

theorem stageSuffixVersion_eval_num (A B C : List Char) (s0 : SemVerSuffix)
    {m : Nat} (hm : m < 2 ^ 31) :
    stageSuffixVersion (some s0) (A :: B :: C :: [natToDigits m]) =
      some (some s0, some (m : Int), [A, B, C]) := by
  unfold stageSuffixVersion
  rw [if_pos (by simp)]
  rw [show (A :: B :: C :: [natToDigits m]).getD 3 [] = natToDigits m from rfl]
  rw [parseI32_digits (natToDigits_ne_nil m) (natToDigits_all_num m)
    (by rw [digitsVal_natToDigits]; exact hm)]
  rw [digitsVal_natToDigits]
  rfl

theorem stageTriple_eval {mj mn pt : ZeroPaddedInt} (h1 : GoodZP mj)
    (h2 : GoodZP mn) (h3 : GoodZP pt) (rest : List (List Char)) :
    stageTriple (renderZP mj :: renderZP mn :: renderZP pt :: rest) =
      some (mj, mn, pt) := by
  unfold stageTriple
  dsimp only
  rw [renderZP_roundtrip h1, renderZP_roundtrip h2, renderZP_roundtrip h3]
theorem fromStr_render {v : SemVer} (hinv : SemVerInv v) :
    SemVer.fromStr (SemVer.render v) = PResult.ok v := by
  have htok := tokenize_render v hinv
  obtain ⟨pre, mj, mn, pt, sfx⟩ := v
  obtain ⟨gmj, gmn, gpt, hver⟩ := hinv
  have hA := renderZP_all_num mj
  have hB := renderZP_all_num mn
  have hC := renderZP_all_num pt
  unfold SemVer.fromStr
  rw [htok]
  cases sfx with
  | none =>
    cases pre with
    | none =>
      have hep : expectedParts ⟨none, mj, mn, pt, none⟩ =
          [renderZP mj, renderZP mn, renderZP pt] := by
        unfold expectedParts
        dsimp only
        simp only [List.nil_append, List.append_nil]
      rw [hep]
      dsimp only
      rw [if_neg (by simp), stageRelease_eval_num (renderZP_ne_nil mj) hA _]
      dsimp only
      rw [stageMonth_eval_num (renderZP_ne_nil mn) hB]
      dsimp only
      rw [stageArity_eval (by simp)]
      dsimp only
      rw [stageSuffix_eval_short (by simp)]
      dsimp only
      rw [stageSuffixVersion_eval_short none (by simp)]
      dsimp only
      rw [stageTriple_eval gmj gmn gpt []]
      rfl
    | some q =>
      cases q
      have hep : expectedParts ⟨some SemVerPre.v, mj, mn, pt, none⟩ =
          "v".toList :: [renderZP mj, renderZP mn, renderZP pt] := by
        unfold expectedParts
        dsimp only
        simp only [List.cons_append, List.nil_append, List.append_nil]
      rw [hep]
      dsimp only
      rw [if_neg (by simp), stageRelease_eval_v _]
      dsimp only
      rw [stageMonth_eval_num (renderZP_ne_nil mn) hB]
      dsimp only
      rw [stageArity_eval (by simp)]
      dsimp only
      rw [stageSuffix_eval_short (by simp)]
      dsimp only
      rw [stageSuffixVersion_eval_short none (by simp)]
      dsimp only
      rw [stageTriple_eval gmj gmn gpt []]
      rfl
  | some sp =>
    obtain ⟨s0, ver⟩ := sp
    cases ver with
    | none =>
      cases pre with
      | none =>
        have hep : expectedParts ⟨none, mj, mn, pt, some ⟨s0, none⟩⟩ =
            [renderZP mj, renderZP mn, renderZP pt, lowerTok s0.canonical] := by
          unfold expectedParts
          dsimp only
          simp only [List.cons_append, List.nil_append, List.append_nil]
        rw [hep]
        dsimp only
        rw [if_neg (by simp), stageRelease_eval_num (renderZP_ne_nil mj) hA _]
        dsimp only
        rw [stageMonth_eval_num (renderZP_ne_nil mn) hB]
        dsimp only
        rw [stageArity_eval (by simp)]
        dsimp only
        rw [stageSuffix_eval_word _ _ _ s0 []]
        dsimp only
        rw [stageSuffixVersion_eval_short (some s0) (by simp)]
        dsimp only
        rw [stageTriple_eval gmj gmn gpt []]
        rfl
      | some q =>
        cases q
        have hep : expectedParts ⟨some SemVerPre.v, mj, mn, pt, some ⟨s0, none⟩⟩ =
            "v".toList ::
              [renderZP mj, renderZP mn, renderZP pt, lowerTok s0.canonical] := by
          unfold expectedParts
          dsimp only
          simp only [List.cons_append, List.nil_append, List.append_nil]
        rw [hep]
        dsimp only
        rw [if_neg (by simp), stageRelease_eval_v _]
        dsimp only
        rw [stageMonth_eval_num (renderZP_ne_nil mn) hB]
        dsimp only
        rw [stageArity_eval (by simp)]
        dsimp only
        rw [stageSuffix_eval_word _ _ _ s0 []]
        dsimp only
        rw [stageSuffixVersion_eval_short (some s0) (by simp)]
        dsimp only
        rw [stageTriple_eval gmj gmn gpt []]
        rfl
    | some n =>
      have hn : 0 ≤ n ∧ n < 2 ^ 31 := hver ⟨s0, some n⟩ rfl n rfl
      have hm : n.toNat < 2 ^ 31 := by omega
      have hcast : ((n.toNat : Int)) = n := Int.toNat_of_nonneg hn.1
      cases pre with
      | none =>
        have hep : expectedParts ⟨none, mj, mn, pt, some ⟨s0, some n⟩⟩ =
            [renderZP mj, renderZP mn, renderZP pt, lowerTok s0.canonical,
              natToDigits n.toNat] := by
          unfold expectedParts
          dsimp only
          simp only [List.cons_append, List.nil_append, List.append_nil]
        rw [hep]
        dsimp only
        rw [if_neg (by simp), stageRelease_eval_num (renderZP_ne_nil mj) hA _]
        dsimp only
        rw [stageMonth_eval_num (renderZP_ne_nil mn) hB]
        dsimp only
        rw [stageArity_eval (by simp)]
        dsimp only
        rw [stageSuffix_eval_word _ _ _ s0 [natToDigits n.toNat]]
        dsimp only
        rw [stageSuffixVersion_eval_num _ _ _ s0 hm]
        dsimp only
        rw [stageTriple_eval gmj gmn gpt []]
        dsimp only
        rw [hcast]
        rfl
      | some q =>
        cases q
        have hep : expectedParts
            ⟨some SemVerPre.v, mj, mn, pt, some ⟨s0, some n⟩⟩ =
            "v".toList :: [renderZP mj, renderZP mn, renderZP pt,
              lowerTok s0.canonical, natToDigits n.toNat] := by
          unfold expectedParts
          dsimp only
          simp only [List.cons_append, List.nil_append, List.append_nil]
        rw [hep]
        dsimp only
        rw [if_neg (by simp), stageRelease_eval_v _]
        dsimp only
        rw [stageMonth_eval_num (renderZP_ne_nil mn) hB]
        dsimp only
        rw [stageArity_eval (by simp)]
        dsimp only
        rw [stageSuffix_eval_word _ _ _ s0 [natToDigits n.toNat]]
        dsimp only
        rw [stageSuffixVersion_eval_num _ _ _ s0 hm]
        dsimp only
        rw [stageTriple_eval gmj gmn gpt []]
        dsimp only
        rw [hcast]
        rfl

/-! ## Claim theorems -/

/-- C1: the spec says empty input and inputs with fewer than two tokens after
the leading-marker stage yield a `ParseError`.  The code instead panics:
`parts[1]` is read (`src/lib.rs:222`) before the arity check, and Rust
`split` never yields zero chunks, so `""`, `"5"` and `"v1"` all abort the
process rather than return `Err`. -/
theorem C1_short_inputs_crash :
    SemVer.fromStr "".toList = PResult.crash ∧
    SemVer.fromStr "5".toList = PResult.crash ∧
    SemVer.fromStr "v1".toList = PResult.crash := by decide

/-- C2: the spec says a numeric-triple token that is not a non-negative
integer yields a `ParseError`.  The code `unwrap`s the token parse
(`src/lib.rs:270`), so `parse("foo.bar.baz")` aborts the process. -/
theorem C2_bad_numeric_crash :
    SemVer.fromStr "foo.bar.baz".toList = PResult.crash := by decide

/-- C3 (counterexample): increment does not preserve the width-invariant.
`"9"` parses to value 9 width 1, and incrementing keeps width 1 while the
value becomes 10, whose digit count 2 exceeds the width. -/
theorem C3_counterexample :
    ZeroPaddedInt.fromStr "9".toList = some ⟨9, 1⟩ ∧
    ((⟨9, 1⟩ : ZeroPaddedInt).add 1).width = 1 ∧
    ¬natLen ((⟨9, 1⟩ : ZeroPaddedInt).add 1).value ≤
      ((⟨9, 1⟩ : ZeroPaddedInt).add 1).width := by decide

/-- C3 (amended): parsing from text and construction from a raw integer
establish `width ≥ digit-count(value)`; increment keeps the same width, and
it preserves the invariant whenever the incremented value does not outgrow
the width (in particular whenever the digit count was strictly below the
width), but not when the increment gains a digit at full width. -/
theorem C3_zero_padded_invariant :
    (∀ (s : List Char) (z : ZeroPaddedInt), ZeroPaddedInt.fromStr s = some z →
      natLen z.value ≤ z.width) ∧
    (∀ n : Nat, natLen (ZeroPaddedInt.fromU32 n).value ≤
      (ZeroPaddedInt.fromU32 n).width) ∧
    (∀ z : ZeroPaddedInt, (z.add 1).width = z.width) ∧
    (∀ z : ZeroPaddedInt, natLen z.value < z.width → z.value + 1 < 2 ^ 32 →
      natLen (z.add 1).value ≤ (z.add 1).width) := by
  refine ⟨fun s z h => (ZeroPaddedInt.fromStr_good h).2.1,
    fun n => le_refl _, fun z => rfl, fun z h1 h2 => ?_⟩
  show natLen ((z.value + 1) % 2 ^ 32) ≤ z.width
  rw [Nat.mod_eq_of_lt h2]
  have := natLen_succ_le z.value
  omega

/-- C3 (witness): the amended claim applied to the parse of `"07"` and to
the increment of value 9 at width 2. -/
theorem C3_witness :
    natLen (7 : Nat) ≤ 2 ∧
    natLen ((⟨9, 2⟩ : ZeroPaddedInt).add 1).value ≤
      ((⟨9, 2⟩ : ZeroPaddedInt).add 1).width :=
  ⟨C3_zero_padded_invariant.1 "07".toList ⟨7, 2⟩ (by decide),
   C3_zero_padded_invariant.2.2.2 ⟨9, 2⟩ (by decide) (by decide)⟩

/-- C4: re-parsing is idempotent on the success domain: whenever `parse`
succeeds, parsing the rendered result gives back exactly the same value —
all widths, the prefix and the suffix pair included — so
`parse(render(parse(x))) = parse(x)`. -/
theorem C4_reparse_idempotent (x : List Char) (v : SemVer)
    (h : SemVer.fromStr x = PResult.ok v) :
    SemVer.fromStr (SemVer.render v) = SemVer.fromStr x := by
  rw [h]
  exact fromStr_render (fromStr_ok_inv h)

/-- C4 (witness): the idempotence theorem applied to `"1.2.3.beta.5"`. -/
theorem C4_reparse_idempotent_witness :
    SemVer.fromStr "1.2.3.beta.5".toList =
      PResult.ok ⟨none, ⟨1, 1⟩, ⟨2, 1⟩, ⟨3, 1⟩,
        some ⟨SemVerSuffix.beta, some 5⟩⟩ ∧
    SemVer.fromStr (SemVer.render ⟨none, ⟨1, 1⟩, ⟨2, 1⟩, ⟨3, 1⟩,
        some ⟨SemVerSuffix.beta, some 5⟩⟩) =
      SemVer.fromStr "1.2.3.beta.5".toList :=
  ⟨by decide, C4_reparse_idempotent "1.2.3.beta.5".toList
    ⟨none, ⟨1, 1⟩, ⟨2, 1⟩, ⟨3, 1⟩, some ⟨SemVerSuffix.beta, some 5⟩⟩
    (by decide)⟩

/-- C5 (counterexample): at `u32::MAX` the addition `self.value + rhs`
overflows, so the major value is not incremented by 1 (release semantics
wrap to 0; a debug build would abort instead). -/
theorem C5_counterexample :
    ¬(SemVer.increment_major
        ⟨none, ⟨4294967295, 10⟩, ⟨0, 1⟩, ⟨0, 1⟩, none⟩).major.value =
      (4294967295 : Nat) + 1 := by decide

/-- C5 (amended): each increment operation leaves the other two numeric
fields, the prefix and the whole suffix pair untouched and preserves the
named field's width; the named field's value becomes `value + 1` whenever
that does not overflow `u32`. -/
theorem C5_increment_frame :
    ∀ v : SemVer,
      ((SemVer.increment_major v).pre = v.pre ∧
       (SemVer.increment_major v).minor = v.minor ∧
       (SemVer.increment_major v).patch = v.patch ∧
       (SemVer.increment_major v).suffix = v.suffix ∧
       (SemVer.increment_major v).major.width = v.major.width ∧
       (v.major.value + 1 < 2 ^ 32 →
         (SemVer.increment_major v).major.value = v.major.value + 1)) ∧
      ((SemVer.increment_minor v).pre = v.pre ∧
       (SemVer.increment_minor v).major = v.major ∧
       (SemVer.increment_minor v).patch = v.patch ∧
       (SemVer.increment_minor v).suffix = v.suffix ∧
       (SemVer.increment_minor v).minor.width = v.minor.width ∧
       (v.minor.value + 1 < 2 ^ 32 →
         (SemVer.increment_minor v).minor.value = v.minor.value + 1)) ∧
      ((SemVer.increment_patch v).pre = v.pre ∧
       (SemVer.increment_patch v).major = v.major ∧
       (SemVer.increment_patch v).minor = v.minor ∧
       (SemVer.increment_patch v).suffix = v.suffix ∧
       (SemVer.increment_patch v).patch.width = v.patch.width ∧
       (v.patch.value + 1 < 2 ^ 32 →
         (SemVer.increment_patch v).patch.value = v.patch.value + 1)) := by
  intro v
  refine ⟨⟨rfl, rfl, rfl, rfl, rfl, fun h => ?_⟩,
    ⟨rfl, rfl, rfl, rfl, rfl, fun h => ?_⟩,
    ⟨rfl, rfl, rfl, rfl, rfl, fun h => ?_⟩⟩ <;>
    exact Nat.mod_eq_of_lt h

/-- C5 (witness): the frame theorem applied to a concrete value, with the
no-overflow hypothesis discharged. -/
theorem C5_increment_frame_witness :
    (SemVer.increment_major ⟨none, ⟨1, 1⟩, ⟨2, 1⟩, ⟨3, 1⟩, none⟩).major.value =
      2 :=
  (C5_increment_frame ⟨none, ⟨1, 1⟩, ⟨2, 1⟩, ⟨3, 1⟩, none⟩).1.2.2.2.2.2
    (by decide)

/-- C6: rendering is total and produces
`[prefix-text]major.minor.patch[-suffix-text]` with the suffix keyword
immediately followed by its optional number (no separator); each numeric
field renders zero-padded to its stored width, falling back to the natural
decimal width when the value outgrew the width, and the digits always read
back to the stored value (no truncation). -/
theorem C6_render_format :
    (∀ v : SemVer, SemVer.render v =
      (match v.pre with
       | some q => q.canonical
       | none => []) ++
      renderZP v.major ++ '.' :: renderZP v.minor ++ '.' :: renderZP v.patch ++
      (match v.suffix with
       | some sp => '-' :: (sp.suffix.canonical ++
           (match sp.version with
            | some n => intToStr n
            | none => []))
       | none => [])) ∧
    (∀ z : ZeroPaddedInt,
      (renderZP z).length = max z.width (natLen z.value) ∧
      digitsVal (renderZP z) = z.value ∧
      (renderZP z).all isNum = true) := by
  constructor
  · intro v
    obtain ⟨pre, mj, mn, pt, sfx⟩ := v
    cases sfx with
    | none => rfl
    | some sp =>
      obtain ⟨s0, ver⟩ := sp
      cases ver <;> rfl
  · intro z
    exact ⟨renderZP_length z, digitsVal_renderZP z, renderZP_all_num z⟩

/-- C7: `parse("v2023-Nov-0027-v1")` succeeds with prefix `v`, major 2023,
minor 11 (the month name substituted), patch 27 at width 4, and suffix pair
`(p, 1)` after the trailing non-semantic `v` marker is dropped and the
keyword defaulted; rendering `increment_patch` of it gives
`"v2023.11.0028-p1"` with width 4 preserved. -/
theorem C7_example_parse_increment :
    SemVer.fromStr "v2023-Nov-0027-v1".toList =
      PResult.ok ⟨some SemVerPre.v, ⟨2023, 4⟩, ⟨11, 2⟩, ⟨27, 4⟩,
        some ⟨SemVerSuffix.p, some 1⟩⟩ ∧
    SemVer.render (SemVer.increment_patch
      ⟨some SemVerPre.v, ⟨2023, 4⟩, ⟨11, 2⟩, ⟨27, 4⟩,
        some ⟨SemVerSuffix.p, some 1⟩⟩) = "v2023.11.0028-p1".toList := by
  decide

/-- C8: a multi-byte character before the first digit of a chunk makes the
chunk splitter slice at a char index used as a byte offset, which falls
inside the multi-byte character: `split_alpha_and_number("é1")` panics, and
so does `parse("é1.2.3")`. -/
theorem C8_multibyte_panic :
    splitAlphaNum "é1".toList = none ∧
    SemVer.fromStr "é1.2.3".toList = PResult.crash := by decide

/-- C9: month substitution touches only index 1 of the post-prefix token
sequence: the month stage leaves every other position unchanged. -/
theorem C9_month_only_position_one (parts parts2 : List (List Char))
    (h : stageMonth parts = some parts2) :
    ∀ i : Nat, i ≠ 1 → parts2.get? i = parts.get? i := by
  intro i hi
  unfold stageMonth at h
  cases hg : parts.get? 1 with
  | none => rw [hg] at h; exact Option.noConfusion h
  | some t1 =>
    rw [hg] at h
    dsimp only at h
    cases hpm : parseMonth t1 with
    | none =>
      rw [hpm] at h
      dsimp only at h
      rw [← Option.some.inj h]
    | some m =>
      rw [hpm] at h
      dsimp only at h
      rw [← Option.some.inj h]
      show (parts.set 1 (natToDigits m)).get? i = parts.get? i
      simp [List.getElem?_set_ne (Ne.symm hi)]

/-- C9 (witness): the frame theorem applied to a token list with a month
name at index 1 (substituted) and at index 3 (untouched). -/
theorem C9_month_only_position_one_witness :
    (["1".toList, "11".toList, "3".toList, "nov".toList] :
      List (List Char)).get? 3 =
    (["1".toList, "nov".toList, "3".toList, "nov".toList] :
      List (List Char)).get? 3 :=
  C9_month_only_position_one
    ["1".toList, "nov".toList, "3".toList, "nov".toList]
    ["1".toList, "11".toList, "3".toList, "nov".toList]
    (by decide) 3 (by decide)

/-- C10: the grammar validator accepts `2.2.3-beta5` and rejects
`2.2.3.beta.5` and `1.0.0.2`. -/
theorem C10_is_valid_examples :
    ComposerChecker.is_valid "2.2.3-beta5".toList = true ∧
    ComposerChecker.is_valid "2.2.3.beta.5".toList = false ∧
    ComposerChecker.is_valid "1.0.0.2".toList = false := by decide
